import Mathlib

/-!
Verification of the prompt-studio storage core (`storage.py`, `models.py`).

The development shallowly embeds:

* Python's `string.Template` default pattern (`$$`, `$name`, `${name}`, and
  the empty `invalid` alternative) as a tokenizer over `List Char`, together
  with `safe_substitute` and `get_identifiers` built on top of it;
* the pydantic data models `PromptTemplate` / `PromptCategory` and the JSON
  (de)serialization performed by `PromptStorage.get_category` /
  `PromptStorage.save_category`;
* the flat-file store as an association list from file name to file content,
  where `FileContent.json j` stands for a file whose bytes are a JSON
  serialization of `j` and `FileContent.invalid raw` stands for bytes that
  fail JSON parsing.  Copying a file copies its `FileContent` verbatim.

Python `dict`s are modelled as association lists whose keys are unique; the
uniqueness invariant is carried as a hypothesis where a theorem needs it.
CPython enumerates a `set` of strings in an order that depends on the
process-wide randomized string hash, so `list(set(...))` is modelled by an
arbitrary linearization function constrained only by the set contract
(`SetLin`): it must return a duplicate-free list with exactly the elements
of its input.
-/

/-! ## Lexicographic order on strings (Python `sorted` compares by code point) -/

/-- Boolean lexicographic less-or-equal on character lists, comparing code
points, as Python compares strings. -/
def lexLe : List Char → List Char → Bool
  | [], _ => true
  | _ :: _, [] => false
  | a :: as, b :: bs =>
    if a.toNat < b.toNat then true
    else if b.toNat < a.toNat then false
    else lexLe as bs

/-- Lexicographic order on strings by code point. -/
def strLe (s t : String) : Prop := lexLe s.data t.data = true

instance : DecidableRel strLe := fun s t => Bool.decEq (lexLe s.data t.data) true

theorem lexLe_cons_iff (a b : Char) (as bs : List Char) :
    lexLe (a :: as) (b :: bs) = true ↔
      a.toNat < b.toNat ∨ (a.toNat = b.toNat ∧ lexLe as bs = true) := by
  simp only [lexLe]
  split_ifs with h1 h2
  · simp; omega
  · simp; omega
  · have : a.toNat = b.toNat := by omega
    simp [this]

theorem lexLe_total : ∀ x y : List Char, lexLe x y = true ∨ lexLe y x = true := by
  intro x
  induction x with
  | nil => intro y; left; rfl
  | cons a as ih =>
    intro y
    cases y with
    | nil => right; rfl
    | cons b bs =>
      rcases Nat.lt_trichotomy a.toNat b.toNat with h | h | h
      · left; rw [lexLe_cons_iff]; exact Or.inl h
      · rcases ih bs with h' | h'
        · left; rw [lexLe_cons_iff]; exact Or.inr ⟨h, h'⟩
        · right; rw [lexLe_cons_iff]; exact Or.inr ⟨h.symm, h'⟩
      · right; rw [lexLe_cons_iff]; exact Or.inl h

theorem lexLe_trans : ∀ x y z : List Char,
    lexLe x y = true → lexLe y z = true → lexLe x z = true := by
  intro x
  induction x with
  | nil => intro y z _ _; rfl
  | cons a as ih =>
    intro y z hxy hyz
    cases y with
    | nil => simp [lexLe] at hxy
    | cons b bs =>
      cases z with
      | nil => simp [lexLe] at hyz
      | cons c cs =>
        rw [lexLe_cons_iff] at hxy hyz ⊢
        rcases hxy with h1 | ⟨h1, h1'⟩ <;> rcases hyz with h2 | ⟨h2, h2'⟩
        · left; omega
        · left; omega
        · left; omega
        · exact Or.inr ⟨by omega, ih bs cs h1' h2'⟩

instance : IsTotal String strLe := ⟨fun a b => lexLe_total a.data b.data⟩

instance : IsTrans String strLe := ⟨fun a b c => lexLe_trans a.data b.data c.data⟩

/-! ## The `string.Template` pattern

The default pattern of `string.Template` is
`\$(?:(?P<escaped>\$)|(?P<named>[_a-zA-Z][_a-zA-Z0-9]*)|{(?P<braced>[_a-zA-Z][_a-zA-Z0-9]*)}|(?P<invalid>))`
(the identifier class is ASCII because of the `(?a:...)` flag).  `re.sub`
scans left to right; every `$` starts a match because the `invalid`
alternative matches the empty string. -/

/-- First character of a placeholder identifier: ASCII letter or underscore. -/
def idStart (c : Char) : Bool :=
  (97 ≤ c.toNat && c.toNat ≤ 122) || (65 ≤ c.toNat && c.toNat ≤ 90) || c.toNat = 95

/-- Continuation character of a placeholder identifier: ASCII letter, digit
or underscore. -/
def idCont (c : Char) : Bool :=
  idStart c || (48 ≤ c.toNat && c.toNat ≤ 57)

/-- Longest prefix of identifier-continuation characters, with the rest. -/
def spanId : List Char → List Char × List Char
  | [] => ([], [])
  | c :: cs =>
    if idCont c then
      let p := spanId cs
      (c :: p.1, p.2)
    else ([], c :: cs)

theorem spanId_append : ∀ l : List Char, (spanId l).1 ++ (spanId l).2 = l := by
  intro l
  induction l with
  | nil => rfl
  | cons c cs ih =>
    by_cases h : idCont c
    · simp only [spanId, if_pos h]
      simpa using ih
    · simp [spanId, if_neg h]

theorem spanId_snd_length_le (l : List Char) : (spanId l).2.length ≤ l.length := by
  conv_rhs => rw [← spanId_append l]
  simp

/-- One match of the template pattern. -/
inductive Tok where
  | lit (c : Char)
  | escaped
  | named (id : String)
  | braced (id : String)
  | invalid
  deriving DecidableEq

/-- The `{` character. -/
def lbrace : Char := Char.ofNat 123

/-- The `}` character. -/
def rbrace : Char := Char.ofNat 125

/-- After a dollar-brace and a valid identifier start `c`, with identifier
tail `a`, check that the remaining input starts with the closing brace. -/
def closeBraced (c : Char) (a : List Char) : List Char → Option (String × List Char)
  | d :: rest => if d = rbrace then some (String.mk (c :: a), rest) else none
  | [] => none

/-- Attempt to read `name}` after `${` was consumed: an identifier followed
by a closing brace.  Returns the identifier and the rest of the input. -/
def readBraced : List Char → Option (String × List Char)
  | [] => none
  | c :: cs => if idStart c then closeBraced c (spanId cs).1 (spanId cs).2 else none

theorem readBraced_text {l : List Char} {i : String} {r : List Char}
    (h : readBraced l = some (i, r)) : i.data ++ rbrace :: r = l := by
  match l with
  | [] => simp [readBraced] at h
  | c :: cs =>
    simp only [readBraced] at h
    split_ifs at h with hc
    · have happ := spanId_append cs
      revert h
      cases heq : (spanId cs).2 with
      | nil => intro h; simp [closeBraced] at h
      | cons d rest =>
        intro h
        simp only [closeBraced] at h
        split_ifs at h with hd
        · simp only [Option.some.injEq, Prod.mk.injEq] at h
          obtain ⟨hi, hr⟩ := h
          subst hd
          rw [heq] at happ
          rw [← hi, ← hr]
          show c :: (spanId cs).1 ++ rbrace :: rest = c :: cs
          rw [List.cons_append, happ]

theorem readBraced_length {l : List Char} {i : String} {r : List Char}
    (h : readBraced l = some (i, r)) : r.length < l.length := by
  have := readBraced_text h
  have hlen : (i.data ++ rbrace :: r).length = l.length := by rw [this]
  simp only [List.length_append, List.length_cons] at hlen
  omega

/-- Fueled tokenizer for the template pattern; `tokenize` instantiates the
fuel with the input length, which always suffices. -/
def tokenizeF : Nat → List Char → List Tok
  | 0, _ => []
  | _ + 1, [] => []
  | _ + 1, [a] => if a = '$' then [Tok.invalid] else [Tok.lit a]
  | fuel + 1, a :: r :: rest' =>
    if a = '$' then
      if r = '$' then Tok.escaped :: tokenizeF fuel rest'
      else if r = lbrace then
        match readBraced rest' with
        | some (i, rest2) => Tok.braced i :: tokenizeF fuel rest2
        | none => Tok.invalid :: tokenizeF fuel (r :: rest')
      else if idStart r then
        Tok.named (String.mk (r :: (spanId rest').1)) :: tokenizeF fuel (spanId rest').2
      else Tok.invalid :: tokenizeF fuel (r :: rest')
    else Tok.lit a :: tokenizeF fuel (r :: rest')

/-- Scanning the content left to right, one token per pattern match. -/
def tokenize (l : List Char) : List Tok := tokenizeF l.length l

theorem tokenizeF_congr : ∀ f1 f2 l, l.length ≤ f1 → l.length ≤ f2 →
    tokenizeF f1 l = tokenizeF f2 l := by
  intro f1
  induction f1 with
  | zero =>
    intro f2 l h1 _
    have : l = [] := List.length_eq_zero.mp (Nat.le_zero.mp h1)
    subst this
    cases f2 <;> rfl
  | succ f ih =>
    intro f2 l h1 h2
    cases f2 with
    | zero =>
      have : l = [] := List.length_eq_zero.mp (Nat.le_zero.mp h2)
      subst this
      rfl
    | succ g =>
      match l with
      | [] => rfl
      | [a] => rfl
      | a :: r :: rest' =>
        simp only [List.length_cons] at h1 h2
        simp only [tokenizeF]
        by_cases ha : a = '$'
        · rw [if_pos ha, if_pos ha]
          by_cases hr : r = '$'
          · rw [if_pos hr, if_pos hr]
            exact congrArg _ (ih g rest' (by omega) (by omega))
          · rw [if_neg hr, if_neg hr]
            by_cases hb : r = lbrace
            · rw [if_pos hb, if_pos hb]
              cases hrb : readBraced rest' with
              | some p =>
                obtain ⟨i, rest2⟩ := p
                have hl := readBraced_length hrb
                exact congrArg _ (ih g rest2 (by omega) (by omega))
              | none =>
                exact congrArg _ (ih g (r :: rest')
                  (by simp only [List.length_cons]; omega)
                  (by simp only [List.length_cons]; omega))
            · rw [if_neg hb, if_neg hb]
              by_cases hs : idStart r
              · rw [if_pos hs, if_pos hs]
                have := spanId_snd_length_le rest'
                exact congrArg _ (ih g (spanId rest').2 (by omega) (by omega))
              · rw [if_neg hs, if_neg hs]
                exact congrArg _ (ih g (r :: rest')
                  (by simp only [List.length_cons]; omega)
                  (by simp only [List.length_cons]; omega))
        · rw [if_neg ha, if_neg ha]
          exact congrArg _ (ih g (r :: rest')
            (by simp only [List.length_cons]; omega)
            (by simp only [List.length_cons]; omega))

theorem tokenizeF_eq_tokenize (f : Nat) (l : List Char) (h : l.length ≤ f) :
    tokenizeF f l = tokenize l :=
  tokenizeF_congr f l.length l h (le_refl _)

/-! ## Token text and rendering -/

/-- The raw text (`mo.group()`) of one pattern match. -/
def tokTextChars : Tok → List Char
  | Tok.lit c => [c]
  | Tok.escaped => ['$', '$']
  | Tok.named i => '$' :: i.data
  | Tok.braced i => '$' :: lbrace :: (i.data ++ [rbrace])
  | Tok.invalid => ['$']

theorem tokenizeF_text : ∀ f l, l.length ≤ f →
    (tokenizeF f l).flatMap tokTextChars = l := by
  intro f
  induction f with
  | zero =>
    intro l h
    have : l = [] := List.length_eq_zero.mp (Nat.le_zero.mp h)
    subst this
    rfl
  | succ f ih =>
    intro l h
    match l with
    | [] => rfl
    | [a] =>
      simp only [tokenizeF]
      by_cases ha : a = '$'
      · rw [if_pos ha, ha]; rfl
      · rw [if_neg ha]; rfl
    | a :: r :: rest' =>
      simp only [List.length_cons] at h
      simp only [tokenizeF]
      by_cases ha : a = '$'
      · rw [if_pos ha]
        subst ha
        by_cases hr : r = '$'
        · rw [if_pos hr]
          subst hr
          simp only [List.flatMap_cons, tokTextChars]
          rw [ih rest' (by omega)]
          rfl
        · rw [if_neg hr]
          by_cases hb : r = lbrace
          · rw [if_pos hb]
            subst hb
            cases hrb : readBraced rest' with
            | some p =>
              obtain ⟨i, rest2⟩ := p
              have htext := readBraced_text hrb
              have hlen := readBraced_length hrb
              simp only [List.flatMap_cons, tokTextChars]
              rw [ih rest2 (by omega)]
              simp only [List.cons_append, List.append_assoc, List.cons.injEq, true_and]
              rw [← htext]
              simp
            | none =>
              simp only [List.flatMap_cons, tokTextChars]
              rw [ih (lbrace :: rest') (by simp only [List.length_cons]; omega)]
              rfl
          · rw [if_neg hb]
            by_cases hs : idStart r
            · rw [if_pos hs]
              have hsp := spanId_snd_length_le rest'
              simp only [List.flatMap_cons, tokTextChars]
              rw [ih (spanId rest').2 (by omega)]
              show '$' :: (r :: (spanId rest').1) ++ (spanId rest').2 = '$' :: r :: rest'
              simp only [List.cons_append, List.cons.injEq, true_and]
              exact spanId_append rest'
            · rw [if_neg hs]
              simp only [List.flatMap_cons, tokTextChars]
              rw [ih (r :: rest') (by simp only [List.length_cons]; omega)]
              rfl
      · rw [if_neg ha]
        simp only [List.flatMap_cons, tokTextChars]
        rw [ih (r :: rest') (by simp only [List.length_cons]; omega)]
        rfl

/-- Concatenating the raw text of every pattern match recovers the content:
the tokenizer covers the input exactly. -/
theorem tokenize_text (l : List Char) : (tokenize l).flatMap tokTextChars = l :=
  tokenizeF_text l.length l (le_refl _)

/-- Value of one match under `Template.safe_substitute`'s `convert`: a named
or braced placeholder becomes the mapping value when its identifier is a
key, otherwise the match is reproduced verbatim (`mo.group()`); `escaped`
becomes a single delimiter; `invalid` is reproduced verbatim. -/
def renderTokChars (vars : List (String × String)) : Tok → List Char
  | Tok.lit c => [c]
  | Tok.escaped => ['$']
  | Tok.named i =>
    match vars.lookup i with
    | some v => v.data
    | none => '$' :: i.data
  | Tok.braced i =>
    match vars.lookup i with
    | some v => v.data
    | none => '$' :: lbrace :: (i.data ++ [rbrace])
  | Tok.invalid => ['$']

/-- `Template(content).safe_substitute(**variables)` (values already
converted to strings by `str`). -/
def safe_substitute (content : String) (vars : List (String × String)) : String :=
  String.mk ((tokenize content.data).flatMap (renderTokChars vars))

/-- The identifier reported by `Template.get_identifiers` for one match:
the `named` or `braced` group if present, nothing for `escaped`/`invalid`. -/
def identOf : Tok → Option String
  | Tok.named i => some i
  | Tok.braced i => some i
  | _ => none

/-- Append an identifier to the accumulator unless already present —
the body of the `get_identifiers` loop. -/
def addId (acc : List String) (x : String) : List String :=
  if x ∈ acc then acc else acc ++ [x]

/-- `Template(content).get_identifiers()`: the distinct named/braced
identifiers in order of first appearance. -/
def get_identifiers (content : String) : List String :=
  ((tokenize content.data).filterMap identOf).foldl addId []

theorem foldl_addId_mem : ∀ (l acc : List String) (x : String),
    x ∈ l.foldl addId acc ↔ x ∈ acc ∨ x ∈ l := by
  intro l
  induction l with
  | nil => intro acc x; simp
  | cons a as ih =>
    intro acc x
    simp only [List.foldl_cons, ih, addId]
    by_cases h : a ∈ acc
    · rw [if_pos h]
      constructor
      · rintro (hx | hx)
        · exact Or.inl hx
        · exact Or.inr (List.mem_cons_of_mem _ hx)
      · rintro (hx | hx)
        · exact Or.inl hx
        · rcases List.mem_cons.mp hx with rfl | hx
          · exact Or.inl h
          · exact Or.inr hx
    · rw [if_neg h]
      simp only [List.mem_append, List.mem_singleton, List.mem_cons]
      tauto

theorem foldl_addId_nodup : ∀ (l acc : List String), acc.Nodup →
    (l.foldl addId acc).Nodup := by
  intro l
  induction l with
  | nil => intro acc h; exact h
  | cons a as ih =>
    intro acc h
    simp only [List.foldl_cons]
    apply ih
    unfold addId
    by_cases ha : a ∈ acc
    · rw [if_pos ha]; exact h
    · rw [if_neg ha]
      rw [List.nodup_append]
      exact ⟨h, List.nodup_singleton a, by simpa using ha⟩

theorem get_identifiers_nodup (content : String) : (get_identifiers content).Nodup :=
  foldl_addId_nodup _ [] List.nodup_nil

theorem mem_get_identifiers (content : String) (x : String) :
    x ∈ get_identifiers content ↔ x ∈ (tokenize content.data).filterMap identOf := by
  unfold get_identifiers
  rw [foldl_addId_mem]
  simp

/-! ## Set linearization

CPython iterates a `set` of strings in an order determined by the
process-wide randomized string hash, so the order of `list(set(...))` is
not a function of the program text.  A linearization function models one
possible behaviour; `SetLin` is the contract every behaviour satisfies:
the produced list has no duplicates and exactly the elements of the
input list. -/

/-- Contract of `list(set(xs))`: some duplicate-free list with exactly the
elements of `xs`. -/
def SetLin (lin : List String → List String) : Prop :=
  ∀ xs, (lin xs).Nodup ∧ ∀ x, x ∈ lin xs ↔ x ∈ xs

/-- One admissible linearization: keep the first occurrence of each element. -/
def firstLin (xs : List String) : List String := xs.foldl addId []

/-- Another admissible linearization: first occurrences, reversed. -/
def revLin (xs : List String) : List String := (xs.foldl addId []).reverse

theorem firstLin_setLin : SetLin firstLin := by
  intro xs
  constructor
  · exact foldl_addId_nodup xs [] List.nodup_nil
  · intro x
    unfold firstLin
    rw [foldl_addId_mem]
    simp

theorem revLin_setLin : SetLin revLin := by
  intro xs
  constructor
  · exact List.nodup_reverse.mpr (foldl_addId_nodup xs [] List.nodup_nil)
  · intro x
    unfold revLin
    rw [List.mem_reverse, foldl_addId_mem]
    simp

theorem setLin_singleton {lin : List String → List String} (h : SetLin lin)
    (x : String) : lin [x] = [x] := by
  obtain ⟨hnd, hmem⟩ := h [x]
  have hx : x ∈ lin [x] := (hmem x).mpr (List.mem_singleton_self x)
  match hl : lin [x] with
  | [] => rw [hl] at hx; cases hx
  | [y] =>
    rw [hl] at hx
    rcases List.mem_singleton.mp hx with rfl
    rfl
  | y :: z :: rest =>
    rw [hl] at hnd hmem
    have hy := (hmem y).mp (List.mem_cons_self _ _)
    have hz := (hmem z).mp (List.mem_cons_of_mem _ (List.mem_cons_self _ _))
    rcases List.mem_singleton.mp hy with rfl
    rcases List.mem_singleton.mp hz with h'
    simp [h'] at hnd

theorem setLin_nil {lin : List String → List String} (h : SetLin lin) :
    lin [] = [] := by
  obtain ⟨_, hmem⟩ := h []
  match hl : lin [] with
  | [] => rfl
  | y :: rest =>
    have := (hmem y).mp (hl ▸ List.mem_cons_self _ _)
    cases this

/-! ## Data models (`models.py`) and JSON (de)serialization (`storage.py`) -/

/-- JSON values as produced by `json.load` on category files (`null`,
strings, integers, arrays, objects).  An object is the association list of
a Python dict: document order, unique keys (uniqueness is assumed as a
hypothesis where needed). -/
inductive Json where
  | null
  | str (s : String)
  | num (n : Int)
  | arr (xs : List Json)
  | obj (fields : List (String × Json))

/-- Pydantic `PromptTemplate`: `content: str`, `description: Optional[str]
= ""`, `variables: List[str] = []`, `model: Optional[str] =
"claude-3-5-sonnet-20241022"`, `max_tokens: Optional[int] = 1000`. -/
structure PromptTemplate where
  content : String
  description : Option String
  variables' : List String
  model : Option String
  max_tokens : Option Int
  deriving DecidableEq

/-- Pydantic `PromptCategory`: `version: str = "1.0.0"`, `category: str`,
`description: str = ""`, `templates: Dict[str, PromptTemplate]` (modelled
as an association list in insertion order with unique keys). -/
structure PromptCategory where
  version : String
  category : String
  description : String
  templates : List (String × PromptTemplate)
  deriving DecidableEq

/-- Default `model` value of a `PromptTemplate`. -/
def defaultModel : String := "claude-3-5-sonnet-20241022"

/-- Pydantic validation of an `Optional[str]` field with default `dflt`:
absent uses the default, JSON `null` is `None`, a string is itself, any
other value fails validation. -/
def parseOptStrField (fields : List (String × Json)) (key : String)
    (dflt : Option String) : Option (Option String) :=
  match fields.lookup key with
  | none => some dflt
  | some Json.null => some none
  | some (Json.str s) => some (some s)
  | some _ => none

/-- Pydantic validation of an `Optional[int]` field with default `dflt`. -/
def parseOptIntField (fields : List (String × Json)) (key : String)
    (dflt : Option Int) : Option (Option Int) :=
  match fields.lookup key with
  | none => some dflt
  | some Json.null => some none
  | some (Json.num n) => some (some n)
  | some _ => none

/-- Pydantic validation of `List[str]` items. -/
def parseStrItems : List Json → Option (List String)
  | [] => some []
  | Json.str s :: rest => (parseStrItems rest).map (s :: ·)
  | _ => none

/-- Pydantic validation of the required `content: str` field. -/
def parseContentField (fields : List (String × Json)) : Option String :=
  match fields.lookup "content" with
  | some (Json.str s) => some s
  | _ => none

/-- Pydantic validation of the `variables: List[str] = []` field. -/
def parseVarsField (fields : List (String × Json)) : Option (List String) :=
  match fields.lookup "variables" with
  | none => some []
  | some (Json.arr xs) => parseStrItems xs
  | some _ => none

/-- `PromptTemplate(**template_data)`: pydantic validation of one template
object.  `content` is required and must be a string; the remaining fields
use their declared defaults when absent; extra keys are ignored. -/
def parseTemplate (j : Json) : Option PromptTemplate :=
  match j with
  | Json.obj fields => do
    let content ← parseContentField fields
    let description ← parseOptStrField fields "description" (some "")
    let vars ← parseVarsField fields
    let model ← parseOptStrField fields "model" (some defaultModel)
    let max_tokens ← parseOptIntField fields "max_tokens" (some 1000)
    some ⟨content, description, vars, model, max_tokens⟩
  | _ => none

/-- The template-dictionary loop of `get_category`: build each
`PromptTemplate` in document order; any validation failure aborts the
whole load. -/
def parseTemplates : List (String × Json) → Option (List (String × PromptTemplate))
  | [] => some []
  | (name, tj) :: rest => do
    let t ← parseTemplate tj
    let ts ← parseTemplates rest
    some ((name, t) :: ts)

/-- Pydantic validation of a `str` field whose `data.get` default is
`dflt`: absent uses the default, a string is itself, anything else fails
validation. -/
def parseStrFieldD (fields : List (String × Json)) (key : String)
    (dflt : String) : Option String :=
  match fields.lookup key with
  | none => some dflt
  | some (Json.str s) => some s
  | some _ => none

/-- `data.get('templates', {})` followed by `.items()`: absent means the
empty dict; a non-dict value raises (caught by `get_category`). -/
def parseTemplatesField (fields : List (String × Json)) :
    Option (List (String × Json)) :=
  match fields.lookup "templates" with
  | none => some []
  | some (Json.obj tfs) => some tfs
  | some _ => none

/-- The body of `get_category` after `json.load`: `data.get('version',
'1.0.0')`, `data.get('category', category)`, `data.get('description',
'')`, `data.get('templates', {})`, with pydantic validation of every
field; any exception yields `None`. -/
def parseCategory (category : String) (j : Json) : Option PromptCategory :=
  match j with
  | Json.obj fields => do
    let tfs ← parseTemplatesField fields
    let templates ← parseTemplates tfs
    let version ← parseStrFieldD fields "version" "1.0.0"
    let cat ← parseStrFieldD fields "category" category
    let description ← parseStrFieldD fields "description" ""
    some ⟨version, cat, description, templates⟩
  | _ => none

/-- JSON value of an `Optional[str]` field on save. -/
def optStrJson : Option String → Json
  | some s => Json.str s
  | none => Json.null

/-- JSON value of an `Optional[int]` field on save. -/
def optIntJson : Option Int → Json
  | some n => Json.num n
  | none => Json.null

/-- The per-template dictionary built by `save_category`: the five fields
in the order the source writes them. -/
def templateToJson (t : PromptTemplate) : Json :=
  Json.obj [("content", Json.str t.content),
            ("description", optStrJson t.description),
            ("variables", Json.arr (t.variables'.map Json.str)),
            ("model", optStrJson t.model),
            ("max_tokens", optIntJson t.max_tokens)]

/-- The `data` dictionary built by `save_category` and passed to
`json.dump`. -/
def catToJson (pc : PromptCategory) : Json :=
  Json.obj [("version", Json.str pc.version),
            ("category", Json.str pc.category),
            ("description", Json.str pc.description),
            ("templates", Json.obj (pc.templates.map (fun p => (p.1, templateToJson p.2))))]

theorem parseTemplate_templateToJson (t : PromptTemplate) :
    parseTemplate (templateToJson t) = some t := by
  obtain ⟨content, description, vars, model, max_tokens⟩ := t
  have hv : ∀ xs : List String, parseStrItems (xs.map Json.str) = some xs := by
    intro xs
    induction xs with
    | nil => rfl
    | cons x xs ih => simp [parseStrItems, ih]
  cases description <;> cases model <;> cases max_tokens <;>
    simp [parseTemplate, templateToJson, parseOptStrField, parseOptIntField,
      parseContentField, parseVarsField, optStrJson, optIntJson, List.lookup, hv]

theorem parseTemplates_map (ts : List (String × PromptTemplate)) :
    parseTemplates (ts.map (fun p => (p.1, templateToJson p.2))) = some ts := by
  induction ts with
  | nil => rfl
  | cons p rest ih =>
    simp [parseTemplates, parseTemplate_templateToJson, ih]

/-- Serialization round-trip: loading the dictionary written by
`save_category` under any storage key recovers the saved category
exactly. -/
theorem parseCategory_catToJson (category : String) (pc : PromptCategory) :
    parseCategory category (catToJson pc) = some pc := by
  obtain ⟨version, cat, description, templates⟩ := pc
  simp [parseCategory, catToJson, parseTemplates_map, parseTemplatesField,
    parseStrFieldD, List.lookup]

/-! ## The rendering operation (`test_prompt_rendering`) -/

/-- The success record of `test_prompt_rendering`: rendered text plus the
reported variable lists. -/
structure RenderOk where
  rendered_prompt : String
  missing_variables : List String
  template_variables : List String
  provided_variables : List String
  deriving DecidableEq

/-- Result dictionary of `test_prompt_rendering`: success with a
`RenderOk`, or failure with an error message. -/
inductive RenderResult where
  | ok (r : RenderOk)
  | err (error : String)
  deriving DecidableEq

/-- The core of `test_prompt_rendering` once the template content is in
hand, parameterized by the set-linearization behaviour `lin`:
`template_vars = set(get_identifiers())`, `provided_vars =
set(variables.keys())`, `missing = list(template_vars - provided_vars)`,
and `safe_substitute`.  The list fed to `lin` for the set difference is
the filtered identifier list, whose membership is exactly that of the
difference. -/
def renderCore (lin : List String → List String) (content : String)
    (vars : List (String × String)) : RenderOk :=
  { rendered_prompt := safe_substitute content vars
    missing_variables :=
      lin ((get_identifiers content).filter (fun x => decide (x ∉ vars.map Prod.fst)))
    template_variables := lin (get_identifiers content)
    provided_variables := lin (vars.map Prod.fst) }

/-! ## The file store (`PromptStorage`)

One flat directory of files.  `FileContent.json j` is a file whose bytes
serialize `j` (as written by `json.dump`); `FileContent.invalid raw` is a
file whose bytes do not parse as JSON.  Copying a file (the backup code
reads the whole file and writes it elsewhere) copies the `FileContent`
verbatim.  The directory is an association list from file name to content
with unique names; all I/O in the model succeeds (the exception paths for
OS-level failures are out of scope). -/

/-- A file's content. -/
inductive FileContent where
  | json (j : Json)
  | invalid (raw : String)

/-- The storage directory: file name to content, unique names. -/
abbrev FS := List (String × FileContent)

/-- Read a file (`open(...).read()` / `json.load`): `none` when absent. -/
def readFile (fs : FS) (name : String) : Option FileContent := fs.lookup name

/-- Create or overwrite a file. -/
def setFile (fs : FS) (name : String) (c : FileContent) : FS :=
  (name, c) :: fs.filter (fun p => p.1 != name)

theorem lookup_filter_ne {β : Type} (fs : List (String × β)) (n m : String)
    (h : m ≠ n) : (fs.filter (fun p => p.1 != n)).lookup m = fs.lookup m := by
  induction fs with
  | nil => rfl
  | cons p rest ih =>
    by_cases hp : p.1 = n
    · have hm2 : (m == p.1) = false := by simp [hp, h]
      have h0 : (m == n) = false := by simp [h]
      simp [List.filter_cons, List.lookup, hp, hm2, h0, ih]
    · by_cases hm : m = p.1
      · simp [List.filter_cons, List.lookup, hp, hm]
      · have h1 : (m == p.1) = false := by simp [hm]
        simp [List.filter_cons, List.lookup, hp, h1, ih]

theorem readFile_setFile_self (fs : FS) (n : String) (c : FileContent) :
    readFile (setFile fs n c) n = some c := by
  simp [readFile, setFile, List.lookup]

theorem readFile_setFile_other (fs : FS) (n m : String) (c : FileContent)
    (h : m ≠ n) : readFile (setFile fs n c) m = readFile fs m := by
  unfold readFile setFile
  have h1 : (m == n) = false := by simp [h]
  simp only [List.lookup, h1]
  exact lookup_filter_ne fs n m h

/-! ## Path helpers (`pathlib`) -/

/-- Index of the last occurrence of `c` (`str.rfind`), as an option. -/
def lastIdxOf (c : Char) : List Char → Option Nat
  | [] => none
  | x :: xs =>
    match lastIdxOf c xs with
    | some i => some (i + 1)
    | none => if x = c then some 0 else none

/-- `PurePath.stem`: the file name without its last suffix.  The suffix is
`name[i:]` for `i = name.rfind('.')` when `0 < i < len(name) - 1`,
otherwise empty. -/
def stemChars (l : List Char) : List Char :=
  match lastIdxOf '.' l with
  | some i => if 0 < i ∧ i < l.length - 1 then l.take i else l
  | none => l

/-- `PurePath.stem` on a file name. -/
def pyStem (s : String) : String := String.mk (stemChars s.data)

/-- `PurePath.with_suffix`: drop the current suffix (if any) and append the
new one. -/
def withSuffix (s sfx : String) : String := String.mk (stemChars s.data ++ sfx.data)

/-- Boolean prefix test on character lists. -/
def isPrefixOfChars : List Char → List Char → Bool
  | [], _ => true
  | _ :: _, [] => false
  | a :: as, b :: bs => a == b && isPrefixOfChars as bs

/-- `fnmatch` of the glob pattern `*.json`: the name ends with `.json`. -/
def endsWithChars (sfx l : List Char) : Bool := isPrefixOfChars sfx.reverse l.reverse

/-- The characters of the `.json` extension. -/
def jsonExtChars : List Char := ['.', 'j', 's', 'o', 'n']

/-- A file name matched by `prompts_dir.glob("*.json")`. -/
def isJsonFile (name : String) : Bool := endsWithChars jsonExtChars name.data

/-! ## Store operations (`storage.py`) -/

/-- `list_categories`: the stems of all files matching `*.json`, sorted
(Python `sorted`, lexicographic by code point). -/
def list_categories (fs : FS) : List String :=
  List.insertionSort strLe (((fs.map Prod.fst).filter (fun n => isJsonFile n)).map pyStem)

/-- `get_category`: read `{category}.json`; `None` when the file is
absent, fails JSON parsing, or fails validation. -/
def get_category (fs : FS) (category : String) : Option PromptCategory :=
  match readFile fs (category ++ ".json") with
  | none => none
  | some (FileContent.invalid _) => none
  | some (FileContent.json j) => parseCategory category j

/-- The rolling-backup location `file_path.with_suffix('.json.backup')`. -/
def overwriteBackupPath (category : String) : String :=
  withSuffix (category ++ ".json") ".json.backup"

/-- The file writes performed by `save_category`, in program order: first
the rolling backup of the existing content (if the file exists), then the
new serialized category. -/
def saveWrites (fs : FS) (category : String) (pc : PromptCategory) :
    List (String × FileContent) :=
  (match readFile fs (category ++ ".json") with
   | some old => [(overwriteBackupPath category, old)]
   | none => []) ++
  [(category ++ ".json", FileContent.json (catToJson pc))]

/-- `save_category`: back up the existing file if present, then write the
serialization of `pc`; returns `True` (the exception path models OS-level
failures, which are out of scope). -/
def save_category (fs : FS) (category : String) (pc : PromptCategory) : FS × Bool :=
  ((saveWrites fs category pc).foldl (fun s w => setFile s w.1 w.2) fs, true)

/-- `backup_category`: `False` if `{category}.json` does not exist,
otherwise copy it verbatim to `{category}_{timestamp}.backup.json`.  The
timestamp (`datetime.now().strftime("%Y%m%d_%H%M%S")`) is an input of the
model. -/
def backup_category (fs : FS) (category timestamp : String) : FS × Bool :=
  match readFile fs (category ++ ".json") with
  | none => (fs, false)
  | some content =>
    (setFile fs (category ++ "_" ++ timestamp ++ ".backup.json") content, true)

/-- Summary entry for one category in `get_all_prompts`. -/
structure CategorySummary where
  version : String
  description : String
  template_count : Nat
  template_names : List String
  deriving DecidableEq

/-- Return value of `get_all_prompts`. -/
structure AllPrompts where
  categories : List (String × CategorySummary)
  total_categories : Nat
  total_templates : Nat
  deriving DecidableEq

/-- The summary recorded for one successfully loaded category. -/
def summaryOf (c : PromptCategory) : CategorySummary :=
  ⟨c.version, c.description, c.templates.length, c.templates.map Prod.fst⟩

/-- One iteration of the `get_all_prompts` loop. -/
def summaryStep (fs : FS) (acc : List (String × CategorySummary) × Nat)
    (name : String) : List (String × CategorySummary) × Nat :=
  match get_category fs name with
  | some c => (acc.1 ++ [(name, summaryOf c)], acc.2 + c.templates.length)
  | none => acc

/-- `get_all_prompts`: loop over `list_categories()`, skip categories that
fail to load, and return the summaries with the totals. -/
def get_all_prompts (fs : FS) : AllPrompts :=
  let r := (list_categories fs).foldl (summaryStep fs) ([], 0)
  ⟨r.1, r.1.length, r.2⟩

/-- A single-quote character, used in the error messages. -/
def squote : String := String.mk [Char.ofNat 39]

/-- The `f"Category '{category}' not found"` message. -/
def categoryNotFoundError (category : String) : String :=
  "Category " ++ squote ++ category ++ squote ++ " not found"

/-- The `f"Template '{t}' not found in category '{c}'"` message. -/
def templateNotFoundError (template_name category : String) : String :=
  "Template " ++ squote ++ template_name ++ squote ++
    " not found in category " ++ squote ++ category ++ squote

/-- `test_prompt_rendering`, parameterized by the set-linearization
behaviour `lin`.  Values of `variables` are modelled after the `str`
conversion the source applies. -/
def test_prompt_rendering (lin : List String → List String) (fs : FS)
    (category template_name : String) (vars : List (String × String)) :
    RenderResult :=
  match get_category fs category with
  | none => RenderResult.err (categoryNotFoundError category)
  | some pc =>
    match pc.templates.lookup template_name with
    | none => RenderResult.err (templateNotFoundError template_name category)
    | some t => RenderResult.ok (renderCore lin t.content vars)

/-! ## Path lemmas -/

theorem isPrefixOfChars_iff : ∀ p l : List Char,
    isPrefixOfChars p l = true ↔ ∃ t, l = p ++ t := by
  intro p
  induction p with
  | nil => intro l; simp [isPrefixOfChars]
  | cons a as ih =>
    intro l
    cases l with
    | nil =>
      simp only [isPrefixOfChars, List.cons_append]
      constructor
      · intro h; cases h
      · rintro ⟨t, ht⟩; cases ht
    | cons b bs =>
      simp only [isPrefixOfChars, Bool.and_eq_true, beq_iff_eq, ih, List.cons_append]
      constructor
      · rintro ⟨rfl, t, rfl⟩; exact ⟨t, rfl⟩
      · rintro ⟨t, ht⟩
        injection ht with h1 h2
        exact ⟨h1.symm, t, h2⟩

theorem endsWithChars_iff (sfx l : List Char) :
    endsWithChars sfx l = true ↔ ∃ pre, l = pre ++ sfx := by
  unfold endsWithChars
  rw [isPrefixOfChars_iff]
  constructor
  · rintro ⟨t, ht⟩
    refine ⟨t.reverse, ?_⟩
    have := congrArg List.reverse ht
    simpa using this
  · rintro ⟨pre, rfl⟩
    exact ⟨pre.reverse, by simp⟩

theorem lastIdxOf_of_not_mem {c : Char} : ∀ {l : List Char}, c ∉ l →
    lastIdxOf c l = none := by
  intro l
  induction l with
  | nil => intro _; rfl
  | cons x xs ih =>
    intro h
    have hx : x ≠ c := fun he => h (he ▸ List.mem_cons_self x xs)
    have hxs : c ∉ xs := fun hm => h (List.mem_cons_of_mem _ hm)
    simp [lastIdxOf, ih hxs, hx]

theorem lastIdxOf_cons_self {c : Char} {suf : List Char} (h : c ∉ suf) :
    lastIdxOf c (c :: suf) = some 0 := by
  simp [lastIdxOf, lastIdxOf_of_not_mem h]

theorem lastIdxOf_append_some {c : Char} {ys : List Char} {i : Nat}
    (h : lastIdxOf c ys = some i) :
    ∀ xs, lastIdxOf c (xs ++ ys) = some (xs.length + i) := by
  intro xs
  induction xs with
  | nil => simpa using h
  | cons x xs ih =>
    have hxu : lastIdxOf c ((x :: xs) ++ ys) = match lastIdxOf c (xs ++ ys) with
      | some j => some (j + 1)
      | none => if x = c then some 0 else none := rfl
    rw [hxu, ih]
    show some (xs.length + i + 1) = some ((x :: xs).length + i)
    simp only [List.length_cons]
    congr 1
    omega

theorem stemChars_append_json {pre : List Char} (h : pre ≠ []) :
    stemChars (pre ++ jsonExtChars) = pre := by
  have hdot : ('.' : Char) ∉ ['j', 's', 'o', 'n'] := by decide
  have hjson : lastIdxOf '.' jsonExtChars = some 0 := lastIdxOf_cons_self hdot
  have hidx : lastIdxOf '.' (pre ++ jsonExtChars) = some pre.length := by
    simpa using lastIdxOf_append_some hjson pre
  have hlen : 0 < pre.length := List.length_pos.mpr h
  have hcond : 0 < pre.length ∧ pre.length < (pre ++ jsonExtChars).length - 1 := by
    constructor
    · exact hlen
    · simp only [List.length_append]
      show pre.length < pre.length + 5 - 1
      omega
  unfold stemChars
  rw [hidx]
  show (if 0 < pre.length ∧ pre.length < (pre ++ jsonExtChars).length - 1
      then List.take pre.length (pre ++ jsonExtChars) else pre ++ jsonExtChars) = pre
  rw [if_pos hcond]
  exact List.take_left pre jsonExtChars

theorem json_data : (".json" : String).data = jsonExtChars := rfl

theorem pyStem_append_json {n : String} (h : n ≠ "") :
    pyStem (n ++ ".json") = n := by
  have hd : n.data ≠ [] := fun he => h (String.ext he)
  apply String.ext
  show stemChars (n ++ ".json").data = n.data
  rw [String.data_append, json_data, stemChars_append_json hd]

theorem isJsonFile_append (n : String) : isJsonFile (n ++ ".json") = true := by
  unfold isJsonFile
  rw [endsWithChars_iff]
  exact ⟨n.data, by rw [String.data_append, json_data]⟩

theorem isJsonFile_iff (n : String) :
    isJsonFile n = true ↔ ∃ pre, n.data = pre ++ jsonExtChars := by
  unfold isJsonFile
  exact endsWithChars_iff _ _

/-- A file name matching `*.json` that is not the bare name `.json` splits
as `stem ++ ".json"` with a nonempty stem. -/
theorem isJsonFile_split {n : String} (hj : isJsonFile n = true)
    (hne : n ≠ ".json") : ∃ pre : List Char, pre ≠ [] ∧ n.data = pre ++ jsonExtChars := by
  obtain ⟨pre, hpre⟩ := (isJsonFile_iff n).mp hj
  refine ⟨pre, ?_, hpre⟩
  intro h0
  subst h0
  exact hne (String.ext (by simpa using hpre))

theorem getLast?_of_json_suffix {l pre : List Char} (h : l = pre ++ jsonExtChars) :
    l.getLast? = some 'n' := by
  subst h
  have : pre ++ jsonExtChars = (pre ++ ['.', 'j', 's', 'o']) ++ ['n'] := by
    simp [jsonExtChars]
  rw [this, List.getLast?_concat]

/-- The rolling-backup file written by `save_category` never matches
`*.json`: its name ends in `.backup`. -/
theorem isJsonFile_overwriteBackupPath (category : String) :
    isJsonFile (overwriteBackupPath category) = false := by
  have hlast : (overwriteBackupPath category).data.getLast? = some 'p' := by
    show (stemChars (category ++ ".json").data ++ (".json.backup" : String).data).getLast?
        = some 'p'
    have : stemChars (category ++ ".json").data ++ (".json.backup" : String).data
        = (stemChars (category ++ ".json").data
            ++ ['.', 'j', 's', 'o', 'n', '.', 'b', 'a', 'c', 'k', 'u']) ++ ['p'] := by
      simp
    rw [this, List.getLast?_concat]
  cases hj : isJsonFile (overwriteBackupPath category) with
  | false => rfl
  | true =>
    obtain ⟨pre, hpre⟩ := (isJsonFile_iff _).mp hj
    have := getLast?_of_json_suffix hpre
    rw [hlast] at this
    cases this

/-- The rolling-backup path differs from the category file path. -/
theorem overwriteBackupPath_ne (category : String) :
    overwriteBackupPath category ≠ category ++ ".json" := by
  intro h
  have h1 : isJsonFile (overwriteBackupPath category) = false :=
    isJsonFile_overwriteBackupPath category
  rw [h, isJsonFile_append] at h1
  cases h1

/-! ## Facts about `save_category` -/

/-- Field access on a JSON object. -/
def jsonField (j : Json) (key : String) : Option Json :=
  match j with
  | Json.obj fields => fields.lookup key
  | _ => none

theorem readFile_after_save (fs : FS) (n : String) (C : PromptCategory) :
    readFile (save_category fs n C).1 (n ++ ".json")
      = some (FileContent.json (catToJson C)) := by
  unfold save_category saveWrites
  cases h : readFile fs (n ++ ".json") with
  | none =>
    show readFile (setFile fs (n ++ ".json") (FileContent.json (catToJson C)))
        (n ++ ".json") = some (FileContent.json (catToJson C))
    exact readFile_setFile_self fs _ _
  | some old =>
    show readFile (setFile (setFile fs (overwriteBackupPath n) old)
        (n ++ ".json") (FileContent.json (catToJson C))) (n ++ ".json")
      = some (FileContent.json (catToJson C))
    exact readFile_setFile_self _ _ _

theorem get_category_after_save (fs : FS) (n : String) (C : PromptCategory) :
    get_category (save_category fs n C).1 n = some C := by
  unfold get_category
  rw [readFile_after_save]
  exact parseCategory_catToJson n C

/-- C1: Round-trip.  `save(n, C)` returns true, and a subsequent `load(n)`
returns a category equal to `C` in every field (version, declared name,
description, and each template's content, description, variables, model
and max_tokens).  The hypothesis is the `dict` invariant that template
names within a category are unique. -/
theorem save_load_round_trip (fs : FS) (n : String) (C : PromptCategory)
    (h : (C.templates.map Prod.fst).Nodup) :
    (save_category fs n C).2 = true ∧
    get_category (save_category fs n C).1 n = some C :=
  ⟨rfl, get_category_after_save fs n C⟩

/-- Witness for C1 at a concrete store, key and category. -/
theorem save_load_round_trip_witness :
    ((([("hello", (⟨"Hello $name", some "greeting template", ["name"],
        some defaultModel, some 1000⟩ : PromptTemplate))] :
        List (String × PromptTemplate)).map Prod.fst).Nodup) ∧
    (save_category [] "greeting"
        ⟨"1.0.0", "greeting", "test prompts",
          [("hello", ⟨"Hello $name", some "greeting template", ["name"],
            some defaultModel, some 1000⟩)]⟩).2 = true ∧
    get_category (save_category [] "greeting"
        ⟨"1.0.0", "greeting", "test prompts",
          [("hello", ⟨"Hello $name", some "greeting template", ["name"],
            some defaultModel, some 1000⟩)]⟩).1 "greeting"
      = some ⟨"1.0.0", "greeting", "test prompts",
          [("hello", ⟨"Hello $name", some "greeting template", ["name"],
            some defaultModel, some 1000⟩)]⟩ :=
  ⟨by decide, save_load_round_trip [] "greeting" _ (by decide)⟩

/-- C5: Backup-before-overwrite.  After `save(n, C1)` succeeds, a second
`save(n, C2)` first writes the exact pre-existing file content (the
serialization of `C1`) to the fixed rolling-backup location and then the
new content; in the resulting store the backup location holds exactly that
content, and it deserializes to a category equal to `C1`. -/
theorem save_backup_before_overwrite (fs : FS) (n : String) (C1 C2 : PromptCategory)
    (h1 : (C1.templates.map Prod.fst).Nodup) :
    saveWrites (save_category fs n C1).1 n C2 =
      [(overwriteBackupPath n, FileContent.json (catToJson C1)),
       (n ++ ".json", FileContent.json (catToJson C2))] ∧
    readFile (save_category (save_category fs n C1).1 n C2).1 (overwriteBackupPath n)
      = some (FileContent.json (catToJson C1)) ∧
    parseCategory n (catToJson C1) = some C1 := by
  have hread := readFile_after_save fs n C1
  refine ⟨?_, ?_, parseCategory_catToJson n C1⟩
  · unfold saveWrites
    rw [hread]
    rfl
  · show readFile ((saveWrites (save_category fs n C1).1 n C2).foldl
        (fun s w => setFile s w.1 w.2) (save_category fs n C1).1) (overwriteBackupPath n)
      = some (FileContent.json (catToJson C1))
    unfold saveWrites
    rw [hread]
    show readFile (setFile (setFile (save_category fs n C1).1 (overwriteBackupPath n)
          (FileContent.json (catToJson C1)))
        (n ++ ".json") (FileContent.json (catToJson C2))) (overwriteBackupPath n)
      = some (FileContent.json (catToJson C1))
    rw [readFile_setFile_other _ _ _ _ (overwriteBackupPath_ne n)]
    exact readFile_setFile_self _ _ _

/-- Witness for C5 at a concrete store, key and pair of categories. -/
theorem save_backup_before_overwrite_witness :
    ((([] : List (String × PromptTemplate)).map Prod.fst).Nodup) ∧
    readFile (save_category (save_category [] "cat"
        ⟨"1.0.0", "cat", "first", []⟩).1 "cat" ⟨"2.0.0", "cat", "second", []⟩).1
        (overwriteBackupPath "cat")
      = some (FileContent.json (catToJson ⟨"1.0.0", "cat", "first", []⟩)) :=
  ⟨by decide,
    (save_backup_before_overwrite [] "cat" ⟨"1.0.0", "cat", "first", []⟩
      ⟨"2.0.0", "cat", "second", []⟩ (by decide)).2.1⟩

/-- C9: Name/key divergence is allowed.  For a category whose declared
name differs from the storage key, `save` still returns true, the file
written under the key carries the declared name in its `category` field,
and a subsequent `load(key)` returns a category whose declared name is the
saved one, not the key. -/
theorem save_name_key_divergence (fs : FS) (n : String) (C : PromptCategory)
    (hname : C.category ≠ n) (h : (C.templates.map Prod.fst).Nodup) :
    (save_category fs n C).2 = true ∧
    readFile (save_category fs n C).1 (n ++ ".json")
      = some (FileContent.json (catToJson C)) ∧
    jsonField (catToJson C) "category" = some (Json.str C.category) ∧
    ∃ C', get_category (save_category fs n C).1 n = some C' ∧
      C'.category = C.category ∧ C'.category ≠ n :=
  ⟨rfl, readFile_after_save fs n C, rfl,
    C, get_category_after_save fs n C, rfl, hname⟩

/-- Witness for C9: key `"key"`, declared name `"other"`. -/
theorem save_name_key_divergence_witness :
    (("other" : String) ≠ "key") ∧
    ((([] : List (String × PromptTemplate)).map Prod.fst).Nodup) ∧
    ∃ C', get_category (save_category [] "key"
        ⟨"1.0.0", "other", "", []⟩).1 "key" = some C' ∧
      C'.category = "other" :=
  ⟨by decide, by decide,
    let r := save_name_key_divergence [] "key" ⟨"1.0.0", "other", "", []⟩
      (by decide) (by decide)
    ⟨r.2.2.2.choose, r.2.2.2.choose_spec.1, r.2.2.2.choose_spec.2.1⟩⟩

/-- C10: Implicit defaulting on load.  For a well-formed category file,
absent fields receive defaults instead of failing: version `"1.0.0"`,
declared name the storage key, description the empty string, templates
empty; a template entry lacking description, variables, model or
max_tokens receives the model's declared default. -/
theorem load_fills_defaults :
    (∀ (key : String) (fields : List (String × Json)) (pc : PromptCategory),
      parseCategory key (Json.obj fields) = some pc →
      (fields.lookup "version" = none → pc.version = "1.0.0") ∧
      (fields.lookup "category" = none → pc.category = key) ∧
      (fields.lookup "description" = none → pc.description = "") ∧
      (fields.lookup "templates" = none → pc.templates = [])) ∧
    (∀ (fields : List (String × Json)) (t : PromptTemplate),
      parseTemplate (Json.obj fields) = some t →
      (fields.lookup "description" = none → t.description = some "") ∧
      (fields.lookup "variables" = none → t.variables' = []) ∧
      (fields.lookup "model" = none → t.model = some defaultModel) ∧
      (fields.lookup "max_tokens" = none → t.max_tokens = some 1000)) := by
  constructor
  · intro key fields pc hs
    unfold parseCategory at hs
    simp only [Option.bind_eq_bind, Option.bind_eq_some, Option.some.injEq] at hs
    obtain ⟨tfs, htfs, templates, htemp, version, hver, cat, hcat, desc, hdesc, hpc⟩ := hs
    subst hpc
    refine ⟨?_, ?_, ?_, ?_⟩
    · intro hv
      unfold parseStrFieldD at hver
      rw [hv] at hver
      exact (Option.some.inj hver).symm
    · intro hc
      unfold parseStrFieldD at hcat
      rw [hc] at hcat
      exact (Option.some.inj hcat).symm
    · intro hd
      unfold parseStrFieldD at hdesc
      rw [hd] at hdesc
      exact (Option.some.inj hdesc).symm
    · intro ht
      unfold parseTemplatesField at htfs
      rw [ht] at htfs
      have h0 : tfs = [] := (Option.some.inj htfs).symm
      rw [h0] at htemp
      exact (Option.some.inj htemp).symm
  · intro fields t hs
    unfold parseTemplate at hs
    simp only [Option.bind_eq_bind, Option.bind_eq_some, Option.some.injEq] at hs
    obtain ⟨content, hcon, desc, hdesc, vars, hvars, model, hmodel, mt, hmt, ht'⟩ := hs
    subst ht'
    refine ⟨?_, ?_, ?_, ?_⟩
    · intro hd
      unfold parseOptStrField at hdesc
      rw [hd] at hdesc
      exact (Option.some.inj hdesc).symm
    · intro hv
      unfold parseVarsField at hvars
      rw [hv] at hvars
      exact (Option.some.inj hvars).symm
    · intro hm
      unfold parseOptStrField at hmodel
      rw [hm] at hmodel
      exact (Option.some.inj hmodel).symm
    · intro hm
      unfold parseOptIntField at hmt
      rw [hm] at hmt
      exact (Option.some.inj hmt).symm

/-- Witness for C10: an empty category object and a content-only template
object parse with all defaults filled. -/
theorem load_fills_defaults_witness :
    parseCategory "k" (Json.obj []) = some ⟨"1.0.0", "k", "", []⟩ ∧
    parseTemplate (Json.obj [("content", Json.str "hi")])
      = some ⟨"hi", some "", [], some defaultModel, some 1000⟩ ∧
    (⟨"1.0.0", "k", "", []⟩ : PromptCategory).version = "1.0.0" ∧
    (⟨"hi", some "", [], some defaultModel, some 1000⟩ : PromptTemplate).max_tokens
      = some 1000 := by
  refine ⟨rfl, rfl, ?_, ?_⟩
  · exact (load_fills_defaults.1 "k" [] _ rfl).1 rfl
  · exact (load_fills_defaults.2 [("content", Json.str "hi")] _ rfl).2.2.2 rfl

/-- C6: Error collapsing.  `load` returns the not-found result both when
the file is absent and when it is unreadable (non-JSON bytes) or
malformed (JSON of the wrong shape), and rendering against a category
that does not load reports the not-found error message instead of
raising.  All four operations are total functions. -/
theorem load_error_collapsing :
    (∀ (fs : FS) (n : String), readFile fs (n ++ ".json") = none →
      get_category fs n = none) ∧
    (∀ (fs : FS) (n raw : String),
      readFile fs (n ++ ".json") = some (FileContent.invalid raw) →
      get_category fs n = none) ∧
    (∀ (fs : FS) (n : String) (j : Json),
      readFile fs (n ++ ".json") = some (FileContent.json j) →
      parseCategory n j = none → get_category fs n = none) ∧
    (∀ (lin : List String → List String) (fs : FS) (c t : String)
      (vars : List (String × String)), get_category fs c = none →
      test_prompt_rendering lin fs c t vars
        = RenderResult.err (categoryNotFoundError c)) := by
  refine ⟨?_, ?_, ?_, ?_⟩
  · intro fs n h
    unfold get_category
    rw [h]
  · intro fs n raw h
    unfold get_category
    rw [h]
  · intro fs n j h hp
    unfold get_category
    rw [h]
    exact hp
  · intro lin fs c t vars h
    unfold test_prompt_rendering
    rw [h]

/-- Witness for C6: an empty store, a store with a non-JSON file, a store
with a wrongly shaped JSON file, and rendering against a missing
category. -/
theorem load_error_collapsing_witness :
    (readFile ([] : FS) ("missing" ++ ".json") = none ∧
      get_category ([] : FS) "missing" = none) ∧
    (readFile [("bad" ++ ".json", FileContent.invalid "not json")] ("bad" ++ ".json")
        = some (FileContent.invalid "not json") ∧
      get_category [("bad" ++ ".json", FileContent.invalid "not json")] "bad" = none) ∧
    (parseCategory "odd" (Json.str "s") = none ∧
      get_category [("odd" ++ ".json", FileContent.json (Json.str "s"))] "odd" = none) ∧
    test_prompt_rendering firstLin ([] : FS) "nonexistent" "t" []
      = RenderResult.err (categoryNotFoundError "nonexistent") :=
  ⟨⟨rfl, load_error_collapsing.1 [] "missing" rfl⟩,
   ⟨rfl, load_error_collapsing.2.1 _ "bad" "not json" rfl⟩,
   ⟨rfl, load_error_collapsing.2.2.1 _ "odd" (Json.str "s") rfl rfl⟩,
   load_error_collapsing.2.2.2 firstLin [] "nonexistent" "t" [] rfl⟩

/-! ## Rendering claims -/

/-- Unfolding of `tokenize` on an input of length at least two. -/
theorem tokenize_cons_cons (a r : Char) (rest' : List Char) :
    tokenize (a :: r :: rest') =
      if a = '$' then
        if r = '$' then Tok.escaped :: tokenize rest'
        else if r = lbrace then
          match readBraced rest' with
          | some (i, rest2) => Tok.braced i :: tokenize rest2
          | none => Tok.invalid :: tokenize (r :: rest')
        else if idStart r then
          Tok.named (String.mk (r :: (spanId rest').1)) :: tokenize (spanId rest').2
        else Tok.invalid :: tokenize (r :: rest')
      else Tok.lit a :: tokenize (r :: rest') := by
  show (if a = '$' then
          if r = '$' then Tok.escaped :: tokenizeF (rest'.length + 1) rest'
          else if r = lbrace then
            match readBraced rest' with
            | some (i, rest2) => Tok.braced i :: tokenizeF (rest'.length + 1) rest2
            | none => Tok.invalid :: tokenizeF (rest'.length + 1) (r :: rest')
          else if idStart r then
            Tok.named (String.mk (r :: (spanId rest').1))
              :: tokenizeF (rest'.length + 1) (spanId rest').2
          else Tok.invalid :: tokenizeF (rest'.length + 1) (r :: rest')
        else Tok.lit a :: tokenizeF (rest'.length + 1) (r :: rest')) = _
  by_cases ha : a = '$'
  · rw [if_pos ha, if_pos ha]
    by_cases hr : r = '$'
    · rw [if_pos hr, if_pos hr, tokenizeF_eq_tokenize _ _ (by omega)]
    · rw [if_neg hr, if_neg hr]
      by_cases hb : r = lbrace
      · rw [if_pos hb, if_pos hb]
        cases hrb : readBraced rest' with
        | some p =>
          obtain ⟨i, rest2⟩ := p
          have := readBraced_length hrb
          exact congrArg _ (tokenizeF_eq_tokenize _ _ (by omega))
        | none =>
          exact congrArg _ (tokenizeF_eq_tokenize _ _
            (by simp only [List.length_cons]; omega))
      · rw [if_neg hb, if_neg hb]
        by_cases hs : idStart r
        · rw [if_pos hs, if_pos hs]
          have := spanId_snd_length_le rest'
          exact congrArg _ (tokenizeF_eq_tokenize _ _ (by omega))
        · rw [if_neg hs, if_neg hs]
          exact congrArg _ (tokenizeF_eq_tokenize _ _
            (by simp only [List.length_cons]; omega))
  · rw [if_neg ha, if_neg ha]
    exact congrArg _ (tokenizeF_eq_tokenize _ _
      (by simp only [List.length_cons]; omega))

/-- C3: Missing-variable policy.  Rendering
`"Hello $name, you are ${age}"` with `{"name": "Ada"}` yields
`"Hello Ada, you are ${age}"` with missing list `["age"]` under every
admissible set-linearization; in general every named or braced placeholder
whose identifier is not a provided key renders to exactly its source text
(`mo.group()`), and the token texts concatenate back to the content, so
substitution is a total function that never raises on missing variables. -/
theorem render_missing_variable_policy :
    (∀ lin, SetLin lin →
      (renderCore lin "Hello $name, you are $\x7bage\x7d"
          [("name", "Ada")]).rendered_prompt = "Hello Ada, you are $\x7bage\x7d" ∧
      (renderCore lin "Hello $name, you are $\x7bage\x7d"
          [("name", "Ada")]).missing_variables = ["age"]) ∧
    (∀ (vars : List (String × String)) (t : Tok) (i : String),
      identOf t = some i → vars.lookup i = none →
      renderTokChars vars t = tokTextChars t) ∧
    (∀ content : String,
      String.mk ((tokenize content.data).flatMap tokTextChars) = content) := by
  refine ⟨?_, ?_, ?_⟩
  · intro lin hlin
    constructor
    · show safe_substitute "Hello $name, you are $\x7bage\x7d" [("name", "Ada")]
          = "Hello Ada, you are $\x7bage\x7d"
      decide
    · have harg : (get_identifiers "Hello $name, you are $\x7bage\x7d").filter
          (fun x => decide (x ∉ ([("name", "Ada")].map Prod.fst))) = ["age"] := by decide
      show lin ((get_identifiers "Hello $name, you are $\x7bage\x7d").filter
          (fun x => decide (x ∉ ([("name", "Ada")].map Prod.fst)))) = ["age"]
      rw [harg]
      exact setLin_singleton hlin "age"
  · intro vars t i hid hlk
    cases t with
    | lit c => cases hid
    | escaped => cases hid
    | invalid => cases hid
    | named j =>
      have hj : j = i := Option.some.inj hid
      subst hj
      show (match vars.lookup j with
            | some v => v.data
            | none => '$' :: j.data) = tokTextChars (Tok.named j)
      rw [hlk]
      rfl
    | braced j =>
      have hj : j = i := Option.some.inj hid
      subst hj
      show (match vars.lookup j with
            | some v => v.data
            | none => '$' :: lbrace :: (j.data ++ [rbrace])) = tokTextChars (Tok.braced j)
      rw [hlk]
      rfl
  · intro content
    rw [tokenize_text]

/-- Witness for C3 under the first-occurrence linearization. -/
theorem render_missing_variable_policy_witness :
    SetLin firstLin ∧
    (renderCore firstLin "Hello $name, you are $\x7bage\x7d"
        [("name", "Ada")]).rendered_prompt = "Hello Ada, you are $\x7bage\x7d" ∧
    (renderCore firstLin "Hello $name, you are $\x7bage\x7d"
        [("name", "Ada")]).missing_variables = ["age"] :=
  ⟨firstLin_setLin,
    (render_missing_variable_policy.1 firstLin firstLin_setLin).1,
    (render_missing_variable_policy.1 firstLin firstLin_setLin).2⟩

/-- C7: Escaping.  Rendering `"Cost: $$5 for $item"` with
`{"item": "widget"}` yields `"Cost: $5 for widget"` with an empty missing
list under every admissible set-linearization; in general `$$` renders as
a single literal dollar and contributes no identifier, and a dollar
followed by neither a valid identifier start, `$`, nor `{` is scanned as
an `invalid` match that renders as itself. -/
theorem render_escaping :
    (∀ lin, SetLin lin →
      (renderCore lin "Cost: $$5 for $item" [("item", "widget")]).rendered_prompt
          = "Cost: $5 for widget" ∧
      (renderCore lin "Cost: $$5 for $item"
          [("item", "widget")]).missing_variables = []) ∧
    (∀ vars, renderTokChars vars Tok.escaped = ['$']) ∧
    identOf Tok.escaped = none ∧
    (∀ cs : List Char, tokenize ('$' :: '$' :: cs) = Tok.escaped :: tokenize cs) ∧
    (∀ (vars : List (String × String)) (c : Char) (cs : List Char),
      idStart c = false → c ≠ '$' → c ≠ lbrace →
      tokenize ('$' :: c :: cs) = Tok.invalid :: tokenize (c :: cs) ∧
      renderTokChars vars Tok.invalid = ['$']) := by
  refine ⟨?_, fun _ => rfl, rfl, ?_, ?_⟩
  · intro lin hlin
    constructor
    · show safe_substitute "Cost: $$5 for $item" [("item", "widget")]
          = "Cost: $5 for widget"
      decide
    · have harg : (get_identifiers "Cost: $$5 for $item").filter
          (fun x => decide (x ∉ ([("item", "widget")].map Prod.fst))) = [] := by decide
      show lin ((get_identifiers "Cost: $$5 for $item").filter
          (fun x => decide (x ∉ ([("item", "widget")].map Prod.fst)))) = []
      rw [harg]
      exact setLin_nil hlin
  · intro cs
    rw [tokenize_cons_cons, if_pos rfl, if_pos rfl]
  · intro vars c cs h0 hc hb
    refine ⟨?_, rfl⟩
    rw [tokenize_cons_cons, if_pos rfl, if_neg hc, if_neg hb,
      if_neg (by rw [h0]; exact Bool.false_ne_true)]

/-- Witness for C7 under the first-occurrence linearization. -/
theorem render_escaping_witness :
    SetLin firstLin ∧
    (renderCore firstLin "Cost: $$5 for $item" [("item", "widget")]).rendered_prompt
        = "Cost: $5 for widget" ∧
    (renderCore firstLin "Cost: $$5 for $item"
        [("item", "widget")]).missing_variables = [] ∧
    tokenize ('$' :: '$' :: []) = Tok.escaped :: tokenize [] :=
  ⟨firstLin_setLin,
    (render_escaping.1 firstLin firstLin_setLin).1,
    (render_escaping.1 firstLin firstLin_setLin).2,
    render_escaping.2.2.2.1 []⟩

/-- The ordering the specification claims for the missing list: the
distinct placeholder identifiers of the content in order of first
appearance (`get_identifiers` reports exactly that order), with the
provided keys removed.  Stated from the specification's words for
comparison with the code's behaviour. -/
def specOrderedMissing (content : String) (vars : List (String × String)) :
    List String :=
  (get_identifiers content).filter (fun x => decide (x ∉ vars.map Prod.fst))

/-- C4 as stated is false.  The code computes
`missing_vars = list(set(ids) - set(keys))`; the order of that list is an
artifact of set iteration (hash-dependent in CPython), not guaranteed to
be first-appearance order.  Under the admissible linearization that lists
a set in reverse first-occurrence order, rendering `"$a $b"` with no
variables reports `["b", "a"]`, not the claimed `["a", "b"]`. -/
theorem render_missing_order_counterexample :
    ¬ (∀ lin, SetLin lin → ∀ (content : String) (vars : List (String × String)),
        (renderCore lin content vars).missing_variables
          = specOrderedMissing content vars) := by
  intro h
  have hc := h revLin revLin_setLin "$a $b" []
  have h1 : (renderCore revLin "$a $b" []).missing_variables = ["b", "a"] := by
    show revLin ((get_identifiers "$a $b").filter
        (fun x => decide (x ∉ ([] : List (String × String)).map Prod.fst))) = ["b", "a"]
    decide
  have h2 : specOrderedMissing "$a $b" [] = ["a", "b"] := by decide
  rw [h1, h2] at hc
  simp at hc

/-- C4 amended: the missing list returned by `render` contains exactly the
distinct placeholder identifiers of the content that are not among the
provided keys, with no duplicates; its order is unspecified (the code
passes the identifiers through an unordered `set`). -/
theorem render_missing_set (lin : List String → List String) (hlin : SetLin lin)
    (content : String) (vars : List (String × String)) :
    (renderCore lin content vars).missing_variables.Nodup ∧
    ∀ x, x ∈ (renderCore lin content vars).missing_variables ↔
      (x ∈ get_identifiers content ∧ x ∉ vars.map Prod.fst) := by
  obtain ⟨hnd, hmem⟩ := hlin ((get_identifiers content).filter
    (fun x => decide (x ∉ vars.map Prod.fst)))
  refine ⟨hnd, fun x => ?_⟩
  show x ∈ lin ((get_identifiers content).filter
      (fun x => decide (x ∉ vars.map Prod.fst))) ↔ _
  rw [hmem x, List.mem_filter]
  simp

/-- Witness for the amended C4 under the first-occurrence linearization. -/
theorem render_missing_set_witness :
    SetLin firstLin ∧
    ((renderCore firstLin "$a $b" []).missing_variables.Nodup ∧
      ∀ x, x ∈ (renderCore firstLin "$a $b" []).missing_variables ↔
        (x ∈ get_identifiers "$a $b" ∧
          x ∉ ([] : List (String × String)).map Prod.fst)) :=
  ⟨firstLin_setLin, render_missing_set firstLin firstLin_setLin "$a $b" []⟩

/-! ## Enumeration (C2) -/

theorem json_name_eq {n : String} {pre : List Char}
    (h : n.data = pre ++ jsonExtChars) : n = String.mk pre ++ ".json" := by
  apply String.ext
  rw [h, String.data_append, json_data]

theorem pyStem_json_name {n : String} {pre : List Char} (hpre : pre ≠ [])
    (h : n.data = pre ++ jsonExtChars) : pyStem n = String.mk pre := by
  show String.mk (stemChars n.data) = String.mk pre
  rw [h, stemChars_append_json hpre]

/-- C2 counterexample: starting from an empty store, save category `"cat"`
and then take a timestamped backup.  `backup_category` succeeds, and
`list_categories` now reports the backup file's stem as a category name —
the timestamped backup file `cat_20240101_000000.backup.json` matches the
`*.json` glob.  The claim says the enumeration of this store is exactly
`["cat"]`. -/
theorem list_categories_backup_counterexample :
    (backup_category (save_category [] "cat" ⟨"1.0.0", "cat", "", []⟩).1
        "cat" "20240101_000000").2 = true ∧
    list_categories (backup_category (save_category [] "cat"
        ⟨"1.0.0", "cat", "", []⟩).1 "cat" "20240101_000000").1
      = ["cat", "cat_20240101_000000.backup"] ∧
    ("cat_20240101_000000.backup" : String) ≠ "cat" := by
  refine ⟨rfl, ?_, by decide⟩
  decide

/-- C2 amended: for a store with unique file names none of which is the
bare name `.json`, `list_categories` is sorted lexicographically, has no
duplicates, and contains exactly the stems of the files matching `*.json`
— which include timestamped backup files (named
`{category}_{timestamp}.backup.json`), though not the rolling overwrite
backups (`*.json.backup`); an empty store yields the empty sequence. -/
theorem list_categories_amended (fs : FS)
    (hnd : (fs.map Prod.fst).Nodup)
    (hok : ∀ p ∈ fs, isJsonFile p.1 = true → p.1 ≠ ".json") :
    (list_categories fs).Sorted strLe ∧
    (list_categories fs).Nodup ∧
    (∀ x, x ∈ list_categories fs ↔ ∃ c, (x ++ ".json", c) ∈ fs) ∧
    list_categories ([] : FS) = [] := by
  have hperm : List.Perm (list_categories fs)
      (((fs.map Prod.fst).filter (fun n => isJsonFile n)).map pyStem) :=
    List.perm_insertionSort strLe _
  refine ⟨List.sorted_insertionSort strLe _, ?_, ?_, rfl⟩
  · rw [hperm.nodup_iff]
    apply List.Nodup.map_on
    · intro n1 hn1 n2 hn2 he
      rw [List.mem_filter] at hn1 hn2
      obtain ⟨hm1, hj1⟩ := hn1
      obtain ⟨hm2, hj2⟩ := hn2
      obtain ⟨p1, hp1, hp1e⟩ := List.mem_map.mp hm1
      obtain ⟨p2, hp2, hp2e⟩ := List.mem_map.mp hm2
      obtain ⟨pre1, hpre1, hd1⟩ := isJsonFile_split hj1 (hp1e ▸ hok p1 hp1 (hp1e ▸ hj1))
      obtain ⟨pre2, hpre2, hd2⟩ := isJsonFile_split hj2 (hp2e ▸ hok p2 hp2 (hp2e ▸ hj2))
      rw [pyStem_json_name hpre1 hd1, pyStem_json_name hpre2 hd2] at he
      rw [json_name_eq hd1, json_name_eq hd2, he]
    · exact hnd.filter _
  · intro x
    rw [hperm.mem_iff, List.mem_map]
    constructor
    · rintro ⟨n, hn, rfl⟩
      rw [List.mem_filter] at hn
      obtain ⟨hm, hj⟩ := hn
      obtain ⟨p, hp, hpe⟩ := List.mem_map.mp hm
      obtain ⟨pre, hpre, hd⟩ := isJsonFile_split hj (hpe ▸ hok p hp (hpe ▸ hj))
      refine ⟨p.2, ?_⟩
      rw [pyStem_json_name hpre hd]
      have : String.mk pre ++ ".json" = n := (json_name_eq hd).symm
      rw [this, ← hpe]
      exact hp
    · rintro ⟨c, hc⟩
      refine ⟨x ++ ".json", ?_, ?_⟩
      · rw [List.mem_filter]
        constructor
        · exact List.mem_map.mpr ⟨(x ++ ".json", c), hc, rfl⟩
        · exact isJsonFile_append x
      · have hx : x ≠ "" := by
          intro h0
          subst h0
          have := hok ("" ++ ".json", c) hc
          rw [isJsonFile_append] at this
          exact (this rfl) (by rfl)
        exact pyStem_append_json hx

/-- Witness for the amended C2 at a concrete one-file store. -/
theorem list_categories_amended_witness :
    (([("cat" ++ ".json", FileContent.json (Json.obj []))] :
        FS).map Prod.fst).Nodup ∧
    (list_categories [("cat" ++ ".json", FileContent.json (Json.obj []))]).Sorted strLe ∧
    (∀ x, x ∈ list_categories [("cat" ++ ".json", FileContent.json (Json.obj []))] ↔
      ∃ c, (x ++ ".json", c) ∈
        ([("cat" ++ ".json", FileContent.json (Json.obj []))] : FS)) := by
  have hok : ∀ p ∈ ([("cat" ++ ".json", FileContent.json (Json.obj []))] : FS),
      isJsonFile p.1 = true → p.1 ≠ ".json" := by
    intro p hp
    rcases List.mem_singleton.mp hp with rfl
    intro _
    decide
  have hnd : (([("cat" ++ ".json", FileContent.json (Json.obj []))] :
      FS).map Prod.fst).Nodup := by decide
  have h := list_categories_amended _ hnd hok
  exact ⟨hnd, h.1, h.2.2.1⟩

/-! ## Summary (C8) -/

theorem foldl_summaryStep (fs : FS) : ∀ (names : List String)
    (acc : List (String × CategorySummary) × Nat),
    (names.foldl (summaryStep fs) acc).1
      = acc.1 ++ names.filterMap
          (fun n => (get_category fs n).map (fun c => (n, summaryOf c))) ∧
    (names.foldl (summaryStep fs) acc).2
      = acc.2 + (names.filterMap
          (fun n => (get_category fs n).map (fun c => c.templates.length))).sum := by
  intro names
  induction names with
  | nil => intro acc; simp
  | cons n rest ih =>
    intro acc
    simp only [List.foldl_cons, List.filterMap_cons]
    cases hg : get_category fs n with
    | none =>
      have hstep : summaryStep fs acc n = acc := by
        unfold summaryStep
        rw [hg]
      rw [hstep]
      simpa using ih acc
    | some c =>
      have hstep : summaryStep fs acc n
          = (acc.1 ++ [(n, summaryOf c)], acc.2 + c.templates.length) := by
        unfold summaryStep
        rw [hg]
      rw [hstep]
      obtain ⟨ih1, ih2⟩ := ih (acc.1 ++ [(n, summaryOf c)], acc.2 + c.templates.length)
      constructor
      · rw [ih1]
        simp
      · rw [ih2]
        simp only [Option.map_some']
        rw [List.sum_cons]
        omega

theorem map_fst_filterMap_summary (fs : FS) : ∀ names : List String,
    ((names.filterMap (fun n => (get_category fs n).map
        (fun c => (n, summaryOf c)))).map Prod.fst)
      = names.filter (fun n => (get_category fs n).isSome) := by
  intro names
  induction names with
  | nil => rfl
  | cons n rest ih =>
    cases hg : get_category fs n <;>
      simp [List.filterMap_cons, List.filter_cons, hg, ih]

theorem map_count_filterMap_summary (fs : FS) : ∀ names : List String,
    ((names.filterMap (fun n => (get_category fs n).map
        (fun c => (n, summaryOf c)))).map (fun p => p.2.template_count))
      = names.filterMap (fun n => (get_category fs n).map
          (fun c => c.templates.length)) := by
  intro names
  induction names with
  | nil => rfl
  | cons n rest ih =>
    cases hg : get_category fs n with
    | none =>
      simp only [List.filterMap_cons, hg, Option.map_none']
      exact ih
    | some c =>
      simp only [List.filterMap_cons, hg, Option.map_some', List.map_cons]
      rw [ih]
      rfl

/-- C8: `get_all_prompts` includes, for every enumerated category that
loads successfully, exactly one entry carrying its version, description,
template count and ordered template names (`summaryOf`); enumerated
categories that fail to load are silently omitted; `total_categories` is
the number of included categories and `total_templates` the sum of their
template counts.  The hypothesis is the uniqueness of the enumerated
names, under which the result dictionary is a plain append in loop
order. -/
theorem get_all_prompts_summary (fs : FS) (h : (list_categories fs).Nodup) :
    ((get_all_prompts fs).categories.map Prod.fst
      = (list_categories fs).filter (fun n => (get_category fs n).isSome)) ∧
    (∀ n s, (n, s) ∈ (get_all_prompts fs).categories ↔
      (n ∈ list_categories fs ∧ ∃ c, get_category fs n = some c ∧ s = summaryOf c)) ∧
    (get_all_prompts fs).total_categories = (get_all_prompts fs).categories.length ∧
    (get_all_prompts fs).total_templates
      = ((get_all_prompts fs).categories.map (fun p => p.2.template_count)).sum := by
  have hcat : (get_all_prompts fs).categories = (list_categories fs).filterMap
      (fun n => (get_category fs n).map (fun c => (n, summaryOf c))) := by
    show ((list_categories fs).foldl (summaryStep fs) ([], 0)).1 = _
    rw [(foldl_summaryStep fs (list_categories fs) ([], 0)).1]
    rfl
  refine ⟨?_, ?_, rfl, ?_⟩
  · rw [hcat]
    exact map_fst_filterMap_summary fs (list_categories fs)
  · intro n s
    rw [hcat, List.mem_filterMap]
    constructor
    · rintro ⟨m, hm, hms⟩
      cases hg : get_category fs m with
      | none =>
        rw [hg] at hms
        cases hms
      | some c =>
        rw [hg] at hms
        have h2 : (m, summaryOf c) = (n, s) := Option.some.inj hms
        rw [Prod.mk.injEq] at h2
        obtain ⟨rfl, hsc⟩ := h2
        exact ⟨hm, c, hg, hsc.symm⟩
    · rintro ⟨hn, c, hg, rfl⟩
      refine ⟨n, hn, ?_⟩
      rw [hg]
      rfl
  · show ((list_categories fs).foldl (summaryStep fs) ([], 0)).2 = _
    rw [(foldl_summaryStep fs (list_categories fs) ([], 0)).2, hcat,
      map_count_filterMap_summary fs (list_categories fs)]
    simp

/-- Witness for C8 at a store with one loadable and one corrupt category
file: the corrupt one is silently omitted and the totals count only the
loadable one. -/
theorem get_all_prompts_summary_witness :
    (list_categories [("a" ++ ".json", FileContent.json (Json.obj [])),
        ("b" ++ ".json", FileContent.invalid "broken")]).Nodup ∧
    ((get_all_prompts [("a" ++ ".json", FileContent.json (Json.obj [])),
        ("b" ++ ".json", FileContent.invalid "broken")]).categories.map Prod.fst
      = (list_categories [("a" ++ ".json", FileContent.json (Json.obj [])),
          ("b" ++ ".json", FileContent.invalid "broken")]).filter
          (fun n => (get_category [("a" ++ ".json", FileContent.json (Json.obj [])),
            ("b" ++ ".json", FileContent.invalid "broken")] n).isSome)) ∧
    (get_all_prompts [("a" ++ ".json", FileContent.json (Json.obj [])),
        ("b" ++ ".json", FileContent.invalid "broken")]).total_categories
      = (get_all_prompts [("a" ++ ".json", FileContent.json (Json.obj [])),
          ("b" ++ ".json", FileContent.invalid "broken")]).categories.length := by
  have hnd : (list_categories [("a" ++ ".json", FileContent.json (Json.obj [])),
      ("b" ++ ".json", FileContent.invalid "broken")]).Nodup := by decide
  have h := get_all_prompts_summary _ hnd
  exact ⟨hnd, h.1, h.2.2.1⟩
